import Mathlib

/-!
Verification of the photo → player name-matching component of the
madison-ultimate-admin repository, embedded shallowly from
`src/photo-mapper/backend/photo_player_mapping.py` and
`src/photo-mapper/backend/app.py` (the two files contain identical copies of
`normalize_name`, `generate_name_variations` and `match_photo_to_player`).

Modelling conventions:
* Python strings are Lean `String`s (lists of characters).  The regex
  character classes `\w` and `\s` and `str.lower()` are modelled on the
  ASCII range (letters, digits, underscore; ASCII whitespace), which covers
  every string the component manipulates.
* Python `None` for a record field is `Option.none`; Python truthiness of an
  optional string (`if first and last:`) is `tru` below: `None` and `""` are
  falsy.
* A Python `set` of strings is a duplicate-free `List String` keeping the
  first occurrence (Python set iteration order is unspecified; the spec
  states that only the reported `matched_variation` string can depend on it).
* Code that can raise (`confidence_order[x['confidence']]`, a dict lookup
  that raises `KeyError` on an unknown confidence tag) is embedded with
  `Option`: `none` models a raised exception.
* `list.sort(key=..., reverse=True)` is a stable descending sort; it is
  embedded as a stable descending insertion sort (`sortDesc`), which agrees
  with every stable sort.
-/

/-- ASCII model of the Python regex class `\s` (space, tab, newline,
carriage return, vertical tab, form feed). -/
def pySpace (c : Char) : Bool :=
  c == ' ' || c == '\t' || c == '\n' || c == '\r' || c.toNat == 11 || c.toNat == 12

/-- ASCII model of the Python regex class `\w`: letters, digits and the
underscore.  Note that `\w` does keep the underscore. -/
def isWordChar (c : Char) : Bool :=
  c.isAlphanum || c == '_'

/-- Characters kept by `re.sub(r'[^\w\s-]', '', ...)`: word characters,
whitespace and the hyphen. -/
def keepChar (c : Char) : Bool :=
  isWordChar c || pySpace c || c == '-'

/-- Characters matched by `[\s\-]`: whitespace or hyphen. -/
def sdChar (c : Char) : Bool :=
  pySpace c || c == '-'

/-- `re.sub(r'[\s\-]+', ' ', l)`: replace every maximal run of
whitespace/hyphen characters by a single space. -/
def collapseSD : List Char → List Char
  | [] => []
  | [c] => if sdChar c then [' '] else [c]
  | c₁ :: c₂ :: rest =>
    if sdChar c₁ then
      if sdChar c₂ then collapseSD (c₂ :: rest)
      else ' ' :: collapseSD (c₂ :: rest)
    else c₁ :: collapseSD (c₂ :: rest)

/-- Python `str.strip()`: drop leading and trailing whitespace. -/
def trimSpaces (l : List Char) : List Char :=
  ((l.dropWhile pySpace).reverse.dropWhile pySpace).reverse

/-- `normalize_name` (photo_player_mapping.py lines 126–135, identical copy
in app.py lines 153–162): empty input gives `""`; otherwise lower-case,
delete every character that is not in `[\w\s-]`, replace runs of
whitespace/hyphens by one space, and strip. -/
def normalize_name (name : String) : String :=
  if name.data.isEmpty then ""
  else String.mk (trimSpaces (collapseSD ((name.data.map Char.toLower).filter keepChar)))

/-- A roster row as built by `load_roster_data` / `get_roster_from_sheets`.
`none` models Python `None`; all-fields-optional strings. -/
structure Player where
  full_name : Option String
  first_name : Option String
  last_name : Option String
  student_id : Option String
  parent1_first : Option String
  parent1_last : Option String
  parent2_first : Option String
  parent2_last : Option String
  deriving DecidableEq, Repr

/-- Python truthiness of an optional string: `None` and `""` are falsy. -/
def tru : Option String → Bool
  | none => false
  | some s => !s.isEmpty

/-- The string value of an optional field as a Python f-string renders it
(`None` renders as `"None"`; only reached behind truthiness guards). -/
def sval : Option String → String
  | none => "None"
  | some s => s

/-- Python `full.replace(' ', rep)`: replace every space character. -/
def replSpace (rep : Char) (s : String) : String :=
  String.mk (s.data.map (fun c => if c == ' ' then rep else c))

/-- The first/last-name variations added for one parent pair
(photo_player_mapping.py lines 169–178). -/
def parentVariations (pf pl : Option String) : List String :=
  if tru pf && tru pl then
    [sval pf ++ " " ++ sval pl,
     sval pf ++ "_" ++ sval pl,
     sval pl ++ "_" ++ sval pf,
     sval pf,
     sval pl]
  else []

/-- The raw (un-normalized) variation strings added by
`generate_name_variations`, in source insertion order (lines 145–178). -/
def rawVariations (player : Player) : List String :=
  (if tru player.first_name && tru player.last_name then
    [sval player.first_name ++ " " ++ sval player.last_name,
     sval player.last_name ++ " " ++ sval player.first_name,
     sval player.first_name ++ "_" ++ sval player.last_name,
     sval player.last_name ++ "_" ++ sval player.first_name,
     sval player.first_name ++ "." ++ sval player.last_name,
     sval player.last_name ++ "." ++ sval player.first_name,
     sval player.first_name ++ "-" ++ sval player.last_name,
     sval player.last_name ++ "-" ++ sval player.first_name,
     sval player.first_name,
     sval player.last_name]
  else []) ++
  (if tru player.full_name then
    [sval player.full_name,
     replSpace '_' (sval player.full_name),
     replSpace '.' (sval player.full_name),
     replSpace '-' (sval player.full_name)]
  else []) ++
  parentVariations player.parent1_first player.parent1_last ++
  parentVariations player.parent2_first player.parent2_last

/-- Rebuild a Python `set` as a duplicate-free list keeping first
occurrences. -/
def dedupKeepFirst (l : List String) : List String :=
  l.foldl (fun acc v => if v ∈ acc then acc else acc ++ [v]) []

/-- `generate_name_variations` (lines 137–187): normalize every raw
variation, drop empties, collect into a set. -/
def generate_name_variations (player : Player) : List String :=
  dedupKeepFirst (((rawVariations player).map normalize_name).filter (fun s => !s.isEmpty))

/-- One candidate match record (the dict appended at lines 202–207 and
214–219). -/
structure Candidate where
  player : Player
  confidence : String
  match_type : String
  matched_variation : String
  deriving DecidableEq, Repr

/-- The partial-match test run on one variation (lines 212–213): longer
than two characters and substring containment either way. -/
def partialHit (nf v : String) : Bool :=
  decide (v.length > 2) && (decide (v.data <:+: nf.data) || decide (nf.data <:+: v.data))

/-- The candidates one roster entry contributes (loop body, lines 197–220):
an exact candidate when the normalized filename is in the variation set
(then `continue`), else the first partial hit (then `break`), else none. -/
def playerCandidates (nf : String) (player : Player) : List Candidate :=
  let vars := generate_name_variations player
  if nf ∈ vars then
    [⟨player, "high", "exact", nf⟩]
  else
    match vars.find? (partialHit nf) with
    | some v => [⟨player, "medium", "partial", v⟩]
    | none => []

/-- The unsorted `matches` list accumulated over the roster in order. -/
def gatherMatches (nf : String) : List Player → List Candidate
  | [] => []
  | p :: ps => playerCandidates nf p ++ gatherMatches nf ps

/-- The `confidence_order` dict (line 223); lookup of any other key raises
`KeyError`, modelled by `none`. -/
def confidence_order (c : String) : Option Nat :=
  if c = "high" then some 3
  else if c = "medium" then some 2
  else if c = "low" then some 1
  else none

/-- The sort key actually used once every lookup succeeded. -/
def candKey (m : Candidate) : Nat :=
  (confidence_order m.confidence).getD 0

/-- Evaluate the sort key on every element (Python computes all keys before
sorting and raises on the first missing one). -/
def lookupKeys : List Candidate → Option (List Nat)
  | [] => some []
  | m :: ms =>
    match confidence_order m.confidence, lookupKeys ms with
    | some k, some ks => some (k :: ks)
    | _, _ => none

/-- Stable descending insertion: place `x` before the first element whose
key is not larger. -/
def insertDesc {α : Type} (key : α → Nat) (x : α) : List α → List α
  | [] => [x]
  | y :: ys => if key y ≤ key x then x :: y :: ys else y :: insertDesc key x ys

/-- Stable descending sort, the behaviour of `list.sort(key=..., reverse=True)`. -/
def sortDesc {α : Type} (key : α → Nat) : List α → List α
  | [] => []
  | x :: xs => insertDesc key x (sortDesc key xs)

/-- `matches.sort(key=lambda x: confidence_order[x['confidence']], reverse=True)`
(lines 223–224): raises iff some key lookup fails. -/
def sort_matches (ms : List Candidate) : Option (List Candidate) :=
  match lookupKeys ms with
  | some _ => some (sortDesc candKey ms)
  | none => none

/-- `Path(photo_name).stem`: the part of the final path component before its
last suffix (CPython: the suffix exists iff the last dot sits strictly
between the first and the last character of the name). -/
def path_stem (p : String) : String :=
  let nm := (p.data.reverse.takeWhile (fun c => c ≠ '/')).reverse
  if nm.contains '.' then
    let suff := nm.reverse.takeWhile (fun c => c ≠ '.')
    let i := nm.length - suff.length - 1
    if 0 < i ∧ i < nm.length - 1 then String.mk (nm.take i) else String.mk nm
  else String.mk nm

/-- `match_photo_to_player` (lines 189–226). -/
def match_photo_to_player (photo_name : String) (players : List Player) :
    Option (List Candidate) :=
  sort_matches (gatherMatches (normalize_name (path_stem photo_name)) players)


/-- One Drive photo record as consumed by `create_photo_mappings`
(app.py, fields `id`, `name`, `thumbnailLink`, `directLink`). -/
structure Photo where
  id : String
  name : String
  thumbnailLink : String
  directLink : String
  deriving DecidableEq, Repr

/-- The per-photo mapping dict built in `create_photo_mappings`
(app.py lines 267–281 for a match, 285–296 for no match).
`matched_player` and `student_id` hold the raw (optional) field values;
the no-match branch stores the literal empty string. -/
structure PhotoMapping where
  photo_id : String
  filename : String
  thumbnail_url : String
  direct_link : String
  matched_player : Option String
  confidence : String
  match_type : String
  matched_variation : String
  student_id : Option String
  alternative_matches : List String
  deriving DecidableEq, Repr

/-- The alternative-match display string
`f"{m['player']['full_name']} ({m['confidence']})"`. -/
def altText (m : Candidate) : String :=
  sval m.player.full_name ++ " (" ++ m.confidence ++ ")"

/-- The mapping built for one photo inside `create_photo_mappings`
(app.py lines 261–297); `none` models a raised exception from the matcher. -/
def mappingForPhoto (players : List Player) (photo : Photo) : Option PhotoMapping :=
  match match_photo_to_player photo.name players with
  | none => none
  | some [] =>
    some ⟨photo.id, photo.name, photo.thumbnailLink, photo.directLink,
          some "", "medium", "no_match", "", some "", []⟩
  | some (best :: rest) =>
    some ⟨photo.id, photo.name, photo.thumbnailLink, photo.directLink,
          best.player.full_name, best.confidence, best.match_type,
          best.matched_variation, best.player.student_id,
          if (best :: rest).length > 1 then (((best :: rest).drop 1).take 2).map altText
          else []⟩

/-- `create_photo_mappings` (app.py lines 255–300): the loop over photos;
an exception anywhere aborts the whole call. -/
def create_photo_mappings (photos : List Photo) (players : List Player) :
    Option (List PhotoMapping) :=
  match photos with
  | [] => some []
  | p :: rest =>
    match mappingForPhoto players p, create_photo_mappings rest players with
    | some m, some ms => some (m :: ms)
    | _, _ => none

/-- The Scenario A roster entry: first "Jane", last "Doe", full "Jane Doe",
empty parent fields. -/
def janeFull : Player :=
  ⟨some "Jane Doe", some "Jane", some "Doe", some "", some "", some "", some "", some ""⟩

/-- The Scenario B-style roster entry: first "Jane", last "Doe", empty full
name and parent fields. -/
def janeBare : Player :=
  ⟨some "", some "Jane", some "Doe", some "", some "", some "", some "", some ""⟩

/-- The short-name roster entry used to witness C6: full name "Jo" only,
whose sole variation "jo" has two characters. -/
def joPlayer : Player := ⟨some "Jo", none, none, none, none, none, none, none⟩

/-- The photo used by the C8 witness. -/
def photoW : Photo := ⟨"id1", "x.jpg", "thumb", "direct"⟩

/-- The no-match mapping `create_photo_mappings` builds for `photoW` on an
empty roster. -/
def noMatchW : PhotoMapping :=
  ⟨"id1", "x.jpg", "thumb", "direct", some "", "medium", "no_match", "", some "", []⟩

/-- Claim C1 (counterexample): the claim asserts `normalize("Jane_Doe") == normalize("jane-doe")`;
in the code `\w` keeps the underscore, so the two normalizations differ
("jane_doe" vs "jane doe"):
the claim is false at the explicit inputs "Jane_Doe" and "jane-doe". -/
theorem claim_C1_counterexample :
    normalize_name "Jane_Doe" ≠ normalize_name "jane-doe" := by decide

/-- Claim C1 (amended): normalize lower-cases, removes every character that is
not a word character (letter, digit, or underscore), whitespace, or hyphen,
collapses whitespace/hyphen runs (not underscores) to a single space and
trims; hence `normalize("jane-doe") == normalize("Jane  Doe") == "jane doe"`
while `normalize("Jane_Doe") == "jane_doe"` keeps its underscore. -/
theorem claim_C1_amended :
    normalize_name "Jane_Doe" = "jane_doe" ∧
    normalize_name "jane-doe" = "jane doe" ∧
    normalize_name "Jane  Doe" = "jane doe" ∧
    normalize_name "jane-doe" = normalize_name "Jane  Doe" := by decide

/-- Claim C7: for the roster `[janeFull]` and the filename "Jane_Doe.jpg" the
matcher returns exactly one candidate, an exact match with confidence
"high" for that player. -/
theorem claim_C7_scenarioA :
    match_photo_to_player "Jane_Doe.jpg" [janeFull] =
      some [⟨janeFull, "high", "exact", "jane_doe"⟩] := by decide

/-- Claim C10: for the roster `[janeBare]` and the filename
"team_photo_janedoe_2025.png" the matcher returns a non-empty result whose
sole element is a partial/"medium" candidate for that player; the
period-separated variation "Jane.Doe" normalizes to "janedoe", which occurs
inside the normalized stem. -/
theorem claim_C10_concatenated_partial :
    normalize_name "Jane.Doe" = "janedoe" ∧
    match_photo_to_player "team_photo_janedoe_2025.png" [janeBare] =
      some [⟨janeBare, "medium", "partial", "janedoe"⟩] := by decide

theorem mem_insertDesc {α : Type} (key : α → Nat) (x a : α) :
    ∀ l : List α, a ∈ insertDesc key x l ↔ a = x ∨ a ∈ l := by
  intro l
  induction l with
  | nil => simp [insertDesc]
  | cons y ys ih =>
    by_cases h : key y ≤ key x
    · simp [insertDesc, h]
    · simp [insertDesc, h, ih]
      tauto

theorem length_insertDesc {α : Type} (key : α → Nat) (x : α) :
    ∀ l : List α, (insertDesc key x l).length = l.length + 1 := by
  intro l
  induction l with
  | nil => simp [insertDesc]
  | cons y ys ih =>
    by_cases h : key y ≤ key x
    · simp [insertDesc, h]
    · simp [insertDesc, h, ih]

theorem length_sortDesc {α : Type} (key : α → Nat) :
    ∀ l : List α, (sortDesc key l).length = l.length := by
  intro l
  induction l with
  | nil => rfl
  | cons x xs ih => simp [sortDesc, length_insertDesc, ih]

theorem mem_sortDesc {α : Type} (key : α → Nat) (a : α) :
    ∀ l : List α, a ∈ sortDesc key l ↔ a ∈ l := by
  intro l
  induction l with
  | nil => simp [sortDesc]
  | cons x xs ih => simp [sortDesc, mem_insertDesc, ih]

theorem pairwise_insertDesc {α : Type} (key : α → Nat) (x : α) (l : List α)
    (h : List.Pairwise (fun a b => key b ≤ key a) l) :
    List.Pairwise (fun a b => key b ≤ key a) (insertDesc key x l) := by
  induction l with
  | nil => simp [insertDesc]
  | cons y ys ih =>
    rcases List.pairwise_cons.mp h with ⟨hy, hys⟩
    by_cases hk : key y ≤ key x
    · rw [show insertDesc key x (y :: ys) = x :: y :: ys from by simp [insertDesc, hk]]
      refine List.pairwise_cons.mpr ⟨?_, h⟩
      intro b hb
      rcases List.mem_cons.mp hb with rfl | hb
      · exact hk
      · exact le_trans (hy b hb) hk
    · rw [show insertDesc key x (y :: ys) = y :: insertDesc key x ys from by
        simp [insertDesc, hk]]
      refine List.pairwise_cons.mpr ⟨?_, ih hys⟩
      intro b hb
      rw [mem_insertDesc] at hb
      rcases hb with rfl | hb
      · exact Nat.le_of_not_le hk
      · exact hy b hb
  
theorem pairwise_sortDesc {α : Type} (key : α → Nat) :
    ∀ l : List α, List.Pairwise (fun a b => key b ≤ key a) (sortDesc key l) := by
  intro l
  induction l with
  | nil => simp [sortDesc]
  | cons x xs ih => exact pairwise_insertDesc key x _ ih

theorem filter_insertDesc {α : Type} (key : α → Nat) (p : α → Bool) (k : Nat) (x : α)
    (hx : p x = true → key x = k) :
    ∀ l : List α, (∀ a ∈ l, p a = true → key a = k) →
      (insertDesc key x l).filter p = if p x then x :: l.filter p else l.filter p := by
  intro l
  induction l with
  | nil =>
    intro _
    cases hpx : p x <;> simp [insertDesc, List.filter, hpx]
  | cons y ys ih =>
    intro hl
    by_cases hk : key y ≤ key x
    · simp only [insertDesc, if_pos hk, List.filter]
      cases hpx : p x <;> cases hpy : p y <;> simp [List.filter, hpx, hpy]
    · have hys : ∀ a ∈ ys, p a = true → key a = k := fun a ha => hl a (List.mem_cons_of_mem _ ha)
      simp only [insertDesc, if_neg hk]
      cases hpy : p y with
      | false =>
        simp only [List.filter, hpy, ih hys]
      | true =>
        have hky : key y = k := hl y (List.mem_cons_self _ _) hpy
        cases hpx : p x with
        | false => simp [List.filter, hpy, ih hys, hpx]
        | true =>
          exfalso
          exact hk (by rw [hky, hx hpx])

theorem filter_sortDesc {α : Type} (key : α → Nat) (p : α → Bool) (k : Nat) :
    ∀ l : List α, (∀ a ∈ l, p a = true → key a = k) →
      (sortDesc key l).filter p = l.filter p := by
  intro l
  induction l with
  | nil => intro _; rfl
  | cons x xs ih =>
    intro hl
    have hxs : ∀ a ∈ xs, p a = true → key a = k := fun a ha => hl a (List.mem_cons_of_mem _ ha)
    have hmem : ∀ a ∈ sortDesc key xs, p a = true → key a = k := by
      intro a ha
      exact hxs a ((mem_sortDesc key a xs).mp ha)
    rw [show sortDesc key (x :: xs) = insertDesc key x (sortDesc key xs) from rfl,
      filter_insertDesc key p k x (hl x (List.mem_cons_self _ _)) _ hmem, ih hxs]
    cases hpx : p x <;> simp [List.filter, hpx]

theorem playerCandidates_shape (nf : String) (player : Player) (c : Candidate)
    (hc : c ∈ playerCandidates nf player) :
    c.player = player ∧
      ((c.confidence = "high" ∧ c.match_type = "exact") ∨
       (c.confidence = "medium" ∧ c.match_type = "partial")) := by
  unfold playerCandidates at hc
  by_cases hm : nf ∈ generate_name_variations player
  · simp only [if_pos hm, List.mem_singleton] at hc
    subst hc
    simp
  · simp only [if_neg hm] at hc
    rcases hfind : (generate_name_variations player).find? (partialHit nf) with _ | v <;>
      rw [hfind] at hc
    · simp at hc
    · simp only [List.mem_singleton] at hc
      subst hc
      simp

theorem mem_gatherMatches (nf : String) (c : Candidate) :
    ∀ players : List Player, c ∈ gatherMatches nf players →
      ∃ p ∈ players, c ∈ playerCandidates nf p := by
  intro players
  induction players with
  | nil => intro h; simp [gatherMatches] at h
  | cons q qs ih =>
    intro h
    rcases List.mem_append.mp h with h | h
    · exact ⟨q, List.mem_cons_self _ _, h⟩
    · rcases ih h with ⟨p, hp, hcp⟩
      exact ⟨p, List.mem_cons_of_mem _ hp, hcp⟩

theorem gatherMatches_confidence (nf : String) (c : Candidate) (players : List Player)
    (h : c ∈ gatherMatches nf players) :
    c.confidence = "high" ∨ c.confidence = "medium" := by
  rcases mem_gatherMatches nf c players h with ⟨p, _, hcp⟩
  rcases (playerCandidates_shape nf p c hcp).2 with ⟨h1, _⟩ | ⟨h1, _⟩
  · exact Or.inl h1
  · exact Or.inr h1

theorem lookupKeys_isSome :
    ∀ ms : List Candidate, (∀ m ∈ ms, (confidence_order m.confidence).isSome) →
      ∃ ks, lookupKeys ms = some ks := by
  intro ms
  induction ms with
  | nil => exact fun _ => ⟨[], rfl⟩
  | cons m rest ih =>
    intro h
    rcases Option.isSome_iff_exists.mp (h m (List.mem_cons_self _ _)) with ⟨k, hk⟩
    rcases ih (fun a ha => h a (List.mem_cons_of_mem _ ha)) with ⟨ks, hks⟩
    exact ⟨k :: ks, by simp [lookupKeys, hk, hks]⟩

theorem match_eq_sortDesc_gather (photo_name : String) (players : List Player)
    (r : List Candidate) (h : match_photo_to_player photo_name players = some r) :
    r = sortDesc candKey (gatherMatches (normalize_name (path_stem photo_name)) players) := by
  unfold match_photo_to_player sort_matches at h
  rcases hks : lookupKeys (gatherMatches (normalize_name (path_stem photo_name)) players) with
      _ | ks <;> rw [hks] at h
  · simp at h
  · simpa using h.symm

/-- Claim C5: the matcher is total and never raises: every input (any filename,
any roster, including players with null/empty name fields) yields `some`
sequence, and the empty roster yields the empty sequence. -/
theorem claim_C5_total (photo_name : String) (players : List Player) :
    (∃ r, match_photo_to_player photo_name players = some r) ∧
      match_photo_to_player photo_name [] = some [] := by
  constructor
  · have hconf : ∀ m ∈ gatherMatches (normalize_name (path_stem photo_name)) players,
        (confidence_order m.confidence).isSome := by
      intro m hm
      rcases gatherMatches_confidence _ m _ hm with h | h <;>
        simp [confidence_order, h]
    rcases lookupKeys_isSome _ hconf with ⟨ks, hks⟩
    refine ⟨sortDesc candKey (gatherMatches (normalize_name (path_stem photo_name)) players), ?_⟩
    simp [match_photo_to_player, sort_matches, hks]
  · rfl

/-- Claim C2: the returned sequence is sorted by confidence descending (the
numeric rank of a later candidate never exceeds an earlier one's), and for
any fixed confidence the subsequence with that confidence is exactly the
corresponding subsequence of the roster-order candidate list
(`gatherMatches`): the sort is stable with roster order as tie-break. -/
theorem claim_C2_sorted_stable (photo_name : String) (players : List Player)
    (r : List Candidate) (h : match_photo_to_player photo_name players = some r) :
    List.Pairwise (fun a b => candKey b ≤ candKey a) r ∧
      ∀ conf : String,
        r.filter (fun c => c.confidence == conf) =
          (gatherMatches (normalize_name (path_stem photo_name)) players).filter
            (fun c => c.confidence == conf) := by
  have hr := match_eq_sortDesc_gather photo_name players r h
  subst hr
  refine ⟨pairwise_sortDesc candKey _, ?_⟩
  intro conf
  refine filter_sortDesc candKey _ ((confidence_order conf).getD 0) _ ?_
  intro a _ ha
  have : a.confidence = conf := by
    simpa using ha
  rw [candKey, this]

theorem claim_C2_witness :
    List.Pairwise (fun a b => candKey b ≤ candKey a)
      [(⟨janeFull, "high", "exact", "jane_doe"⟩ : Candidate)] :=
  (claim_C2_sorted_stable "Jane_Doe.jpg" [janeFull]
    [⟨janeFull, "high", "exact", "jane_doe"⟩] (by decide)).1

/-- Claim C3: each roster entry contributes at most one candidate: when the
normalized stem is in the variation set exactly the one exact candidate is
emitted (no partial check), otherwise at most the first partial hit; and
therefore a match result never has more candidates than the roster has
players. -/
theorem claim_C3_at_most_one (nf : String) (player : Player) :
    ((playerCandidates nf player).length ≤ 1 ∧
      (nf ∈ generate_name_variations player →
        playerCandidates nf player = [⟨player, "high", "exact", nf⟩]) ∧
      (nf ∉ generate_name_variations player →
        playerCandidates nf player = [] ∨
        ∃ v, (generate_name_variations player).find? (partialHit nf) = some v ∧
          playerCandidates nf player = [⟨player, "medium", "partial", v⟩])) ∧
    ∀ (photo_name : String) (players : List Player) (r : List Candidate),
      match_photo_to_player photo_name players = some r → r.length ≤ players.length := by
  constructor
  · refine ⟨?_, ?_, ?_⟩
    · unfold playerCandidates
      by_cases hm : nf ∈ generate_name_variations player
      · simp [if_pos hm]
      · simp only [if_neg hm]
        rcases (generate_name_variations player).find? (partialHit nf) <;> simp
    · intro hm
      simp [playerCandidates, if_pos hm]
    · intro hm
      unfold playerCandidates
      simp only [if_neg hm]
      rcases hfind : (generate_name_variations player).find? (partialHit nf) with _ | v
      · exact Or.inl (by simp)
      · exact Or.inr ⟨v, rfl, by simp⟩
  · intro photo_name players r h
    rw [match_eq_sortDesc_gather photo_name players r h, length_sortDesc]
    clear h
    induction players with
    | nil => simp [gatherMatches]
    | cons q qs ih =>
      have hq : (playerCandidates (normalize_name (path_stem photo_name)) q).length ≤ 1 := by
        unfold playerCandidates
        by_cases hm : normalize_name (path_stem photo_name) ∈ generate_name_variations q
        · simp [if_pos hm]
        · simp only [if_neg hm]
          rcases (generate_name_variations q).find? (partialHit
            (normalize_name (path_stem photo_name))) <;> simp
      calc (gatherMatches (normalize_name (path_stem photo_name)) (q :: qs)).length
          = (playerCandidates (normalize_name (path_stem photo_name)) q).length +
            (gatherMatches (normalize_name (path_stem photo_name)) qs).length := by
            simp [gatherMatches]
        _ ≤ 1 + qs.length := Nat.add_le_add hq ih
        _ = (q :: qs).length := by simp [Nat.add_comm]

theorem claim_C3_witness :
    playerCandidates "jane_doe" janeFull = [⟨janeFull, "high", "exact", "jane_doe"⟩] :=
  (claim_C3_at_most_one "jane_doe" janeFull).1.2.1 (by decide)

/-- Claim C4: every candidate the matcher ever returns is consistent: match type
"exact" forces confidence "high", "partial" forces "medium", and the "low"
tier never occurs. -/
theorem claim_C4_consistent (photo_name : String) (players : List Player)
    (r : List Candidate) (h : match_photo_to_player photo_name players = some r)
    (c : Candidate) (hc : c ∈ r) :
    (c.match_type = "exact" → c.confidence = "high") ∧
      (c.match_type = "partial" → c.confidence = "medium") ∧
      c.confidence ≠ "low" := by
  rw [match_eq_sortDesc_gather photo_name players r h] at hc
  have hg := (mem_sortDesc candKey c _).mp hc
  rcases mem_gatherMatches _ c _ hg with ⟨p, _, hcp⟩
  rcases (playerCandidates_shape _ p c hcp).2 with ⟨h1, h2⟩ | ⟨h1, h2⟩ <;>
    constructor <;> simp [h1, h2]

theorem claim_C4_witness :
    (⟨janeFull, "high", "exact", "jane_doe"⟩ : Candidate).confidence = "high" ∧
      (⟨janeFull, "high", "exact", "jane_doe"⟩ : Candidate).confidence ≠ "low" := by
  have h := claim_C4_consistent "Jane_Doe.jpg" [janeFull]
    [⟨janeFull, "high", "exact", "jane_doe"⟩] (by decide)
    ⟨janeFull, "high", "exact", "jane_doe"⟩ (by decide)
  exact ⟨h.1 rfl, h.2.2⟩

/-- Claim C6: a player all of whose generated variations have at most two
characters never yields a partial candidate, whatever the stem. -/
theorem claim_C6_short_suppressed (nf : String) (player : Player)
    (hshort : ∀ v ∈ generate_name_variations player, v.length ≤ 2) :
    ∀ c ∈ playerCandidates nf player, c.match_type ≠ "partial" := by
  intro c hc
  unfold playerCandidates at hc
  by_cases hm : nf ∈ generate_name_variations player
  · simp only [if_pos hm, List.mem_singleton] at hc
    subst hc
    simp
  · simp only [if_neg hm] at hc
    rcases hfind : (generate_name_variations player).find? (partialHit nf) with _ | v <;>
      rw [hfind] at hc
    · simp at hc
    · exfalso
      have hv := List.find?_some hfind
      have hmemv := List.mem_of_find?_eq_some hfind
      have hlen : v.length > 2 := by
        have := (Bool.and_eq_true _ _).mp hv
        exact of_decide_eq_true this.1
      exact absurd (hshort v hmemv) (by omega)

theorem claim_C6_witness :
    (⟨joPlayer, "high", "exact", "jo"⟩ : Candidate).match_type ≠ "partial" :=
  claim_C6_short_suppressed "jo" joPlayer (by decide)
    ⟨joPlayer, "high", "exact", "jo"⟩ (by decide)

theorem mappingForPhoto_spec (players : List Player) (p : Photo) (m : PhotoMapping)
    (h : mappingForPhoto players p = some m) :
    ∃ r, match_photo_to_player p.name players = some r ∧
      (r = [] → m.matched_player = some "" ∧ m.confidence = "medium" ∧
        m.match_type = "no_match" ∧ m.alternative_matches = []) ∧
      ∀ best rest, r = best :: rest →
        m.matched_player = best.player.full_name ∧ m.confidence = best.confidence ∧
        m.match_type = best.match_type ∧
        m.alternative_matches = (rest.take 2).map altText := by
  unfold mappingForPhoto at h
  rcases hmatch : match_photo_to_player p.name players with _ | r <;> rw [hmatch] at h
  · simp at h
  · refine ⟨r, rfl, ?_⟩
    rcases r with _ | ⟨best, rest⟩
    · constructor
      · intro _
        simp only [Option.some.injEq] at h
        subst h
        simp
      · intro best rest hcontr
        simp at hcontr
    · simp only [Option.some.injEq] at h
      subst h
      constructor
      · intro hcontr
        simp at hcontr
      · intro b t hbt
        injection hbt with hb ht
        subst hb
        subst ht
        refine ⟨rfl, rfl, rfl, ?_⟩
        rcases rest with _ | ⟨t1, ts⟩
        · simp
        · simp

/-- Claim C8: `create_photo_mappings` produces one mapping per photo; the first
candidate of the match result is the matched player (name, confidence,
match type), only the candidates at indexes 1 and 2 are surfaced as
alternatives, and an empty match result is reported with confidence
"medium", match type "no_match", empty matched player and no
alternatives. -/
theorem claim_C8_best_match (photos : List Photo) (players : List Player)
    (ms : List PhotoMapping) (h : create_photo_mappings photos players = some ms) :
    ms.length = photos.length ∧
      ∀ p m, (p, m) ∈ photos.zip ms →
        ∃ r, match_photo_to_player p.name players = some r ∧
          (r = [] → m.matched_player = some "" ∧ m.confidence = "medium" ∧
            m.match_type = "no_match" ∧ m.alternative_matches = []) ∧
          ∀ best rest, r = best :: rest →
            m.matched_player = best.player.full_name ∧ m.confidence = best.confidence ∧
            m.match_type = best.match_type ∧
            m.alternative_matches = (rest.take 2).map altText := by
  induction photos generalizing ms with
  | nil =>
    simp only [create_photo_mappings, Option.some.injEq] at h
    subst h
    simp
  | cons p ps ih =>
    unfold create_photo_mappings at h
    rcases hm : mappingForPhoto players p with _ | m0 <;> rw [hm] at h
    · simp at h
    · rcases hrec : create_photo_mappings ps players with _ | ms0 <;> rw [hrec] at h
      · simp at h
      · simp only [Option.some.injEq] at h
        subst h
        rcases ih ms0 hrec with ⟨hlen, hall⟩
        refine ⟨by simp [hlen], ?_⟩
        intro q mq hq
        have hq' : q = p ∧ mq = m0 ∨ (q, mq) ∈ ps.zip ms0 := by simpa using hq
        rcases hq' with ⟨hq1, hq2⟩ | hmem
        · subst hq1
          subst hq2
          exact mappingForPhoto_spec players q mq hm
        · exact hall q mq hmem

theorem claim_C8_witness :
    noMatchW.matched_player = some "" ∧ noMatchW.confidence = "medium" ∧
      noMatchW.match_type = "no_match" ∧ noMatchW.alternative_matches = [] := by
  rcases claim_C8_best_match [photoW] [] [noMatchW] (by decide) with ⟨-, hall⟩
  rcases hall photoW noMatchW (by decide) with ⟨r, hr, hempty, -⟩
  have hnil : r = [] := by
    have h0 : match_photo_to_player photoW.name [] = some [] := rfl
    rw [h0] at hr
    exact (Option.some.inj hr).symm
  exact hempty hnil

theorem char_toNat_ofNat (n : Nat) (h : n.isValidChar) : (Char.ofNat n).toNat = n := by
  rw [Char.ofNat, dif_pos h]
  rfl

theorem toLower_idem (c : Char) : Char.toLower (Char.toLower c) = Char.toLower c := by
  unfold Char.toLower
  by_cases h : 65 ≤ c.toNat ∧ c.toNat ≤ 90
  · rw [if_pos h]
    have ht : (Char.ofNat (c.toNat + 32)).toNat = c.toNat + 32 :=
      char_toNat_ofNat _ (Or.inl (by omega))
    rw [ht, if_neg (by omega)]
  · rw [if_neg h, if_neg h]

theorem mem_collapseSD (c : Char) :
    ∀ l : List Char, c ∈ collapseSD l → c = ' ' ∨ (c ∈ l ∧ sdChar c = false) := by
  intro l
  induction l using collapseSD.induct with
  | case1 => intro h; simp [collapseSD] at h
  | case2 d hd =>
    intro h
    simp [collapseSD, hd] at h
    exact Or.inl h
  | case3 d hd =>
    intro h
    simp [collapseSD, hd] at h
    subst h
    exact Or.inr ⟨List.mem_singleton_self _, by simpa using hd⟩
  | case4 c₁ c₂ rest h₁ h₂ ih =>
    intro h
    rw [show collapseSD (c₁ :: c₂ :: rest) = collapseSD (c₂ :: rest) from by
      simp [collapseSD, h₁, h₂]] at h
    rcases ih h with h | ⟨hm, hs⟩
    · exact Or.inl h
    · exact Or.inr ⟨List.mem_cons_of_mem _ hm, hs⟩
  | case5 c₁ c₂ rest h₁ h₂ ih =>
    intro h
    rw [show collapseSD (c₁ :: c₂ :: rest) = ' ' :: collapseSD (c₂ :: rest) from by
      simp [collapseSD, h₁, h₂]] at h
    rcases List.mem_cons.mp h with rfl | h
    · exact Or.inl rfl
    · rcases ih h with h | ⟨hm, hs⟩
      · exact Or.inl h
      · exact Or.inr ⟨List.mem_cons_of_mem _ hm, hs⟩
  | case6 c₁ c₂ rest h₁ ih =>
    intro h
    rw [show collapseSD (c₁ :: c₂ :: rest) = c₁ :: collapseSD (c₂ :: rest) from by
      simp [collapseSD, h₁]] at h
    rcases List.mem_cons.mp h with rfl | h
    · exact Or.inr ⟨List.mem_cons_self _ _, by simpa using h₁⟩
    · rcases ih h with h | ⟨hm, hs⟩
      · exact Or.inl h
      · exact Or.inr ⟨List.mem_cons_of_mem _ hm, hs⟩

theorem head_collapseSD (c : Char) (rest : List Char) (h : sdChar c = false) :
    (collapseSD (c :: rest)).head? = some c := by
  rcases rest with _ | ⟨d, ds⟩
  · simp [collapseSD, h]
  · simp [collapseSD, h]

theorem chain_collapseSD :
    ∀ l : List Char,
      List.Chain' (fun a b => sdChar a = false ∨ sdChar b = false) (collapseSD l) := by
  intro l
  induction l using collapseSD.induct with
  | case1 => simp [collapseSD]
  | case2 d hd => simp [collapseSD, hd]
  | case3 d hd => simp [collapseSD, hd]
  | case4 c₁ c₂ rest h₁ h₂ ih =>
    rw [show collapseSD (c₁ :: c₂ :: rest) = collapseSD (c₂ :: rest) from by
      simp [collapseSD, h₁, h₂]]
    exact ih
  | case5 c₁ c₂ rest h₁ h₂ ih =>
    rw [show collapseSD (c₁ :: c₂ :: rest) = ' ' :: collapseSD (c₂ :: rest) from by
      simp [collapseSD, h₁, h₂]]
    refine List.Chain'.cons' ih ?_
    intro y hy
    rw [head_collapseSD c₂ rest (by simpa using h₂)] at hy
    simp only [Option.mem_def, Option.some.injEq] at hy
    subst hy
    exact Or.inr (by simpa using h₂)
  | case6 c₁ c₂ rest h₁ ih =>
    rw [show collapseSD (c₁ :: c₂ :: rest) = c₁ :: collapseSD (c₂ :: rest) from by
      simp [collapseSD, h₁]]
    refine List.Chain'.cons' ih ?_
    intro y _
    exact Or.inl (by simpa using h₁)

theorem collapseSD_eq_self :
    ∀ l : List Char, (∀ c ∈ l, sdChar c = true → c = ' ') →
      List.Chain' (fun a b => sdChar a = false ∨ sdChar b = false) l →
      collapseSD l = l := by
  intro l
  induction l using collapseSD.induct with
  | case1 => intro _ _; rfl
  | case2 d hd =>
    intro hsd _
    have : d = ' ' := hsd d (List.mem_singleton_self _) hd
    subst this
    simp [collapseSD, hd]
  | case3 d hd =>
    intro _ _
    simp [collapseSD, hd]
  | case4 c₁ c₂ rest h₁ h₂ ih =>
    intro hsd hch
    exfalso
    rcases (List.chain'_cons.mp hch).1 with h | h
    · rw [h₁] at h; exact Bool.true_eq_false.mp h
    · rw [h₂] at h; exact Bool.true_eq_false.mp h
  | case5 c₁ c₂ rest h₁ h₂ ih =>
    intro hsd hch
    rw [show collapseSD (c₁ :: c₂ :: rest) = ' ' :: collapseSD (c₂ :: rest) from by
      simp [collapseSD, h₁, h₂]]
    have h1s : c₁ = ' ' := hsd c₁ (List.mem_cons_self _ _) h₁
    rw [ih (fun c hc => hsd c (List.mem_cons_of_mem _ hc)) (List.chain'_cons.mp hch).2, h1s]
  | case6 c₁ c₂ rest h₁ ih =>
    intro hsd hch
    rw [show collapseSD (c₁ :: c₂ :: rest) = c₁ :: collapseSD (c₂ :: rest) from by
      simp [collapseSD, h₁]]
    rw [ih (fun c hc => hsd c (List.mem_cons_of_mem _ hc)) (List.chain'_cons.mp hch).2]

theorem head_dropWhile (p : Char → Bool) (c : Char) :
    ∀ l : List Char, (l.dropWhile p).head? = some c → p c = false := by
  intro l
  induction l with
  | nil => intro h; simp [List.dropWhile] at h
  | cons a as ih =>
    intro h
    rcases hpa : p a with _ | _
    · rw [List.dropWhile_cons, if_neg (by simp [hpa])] at h
      simp only [List.head?_cons, Option.some.injEq] at h
      subst h
      exact hpa
    · rw [List.dropWhile_cons, if_pos (by simp [hpa])] at h
      exact ih h

theorem dropWhile_eq_self_of_head (p : Char → Bool) (l : List Char)
    (h : ∀ c, l.head? = some c → p c = false) : l.dropWhile p = l := by
  rcases l with _ | ⟨a, as⟩
  · rfl
  · rw [List.dropWhile_cons, if_neg (by simp [h a rfl])]

theorem trimSpaces_within (l : List Char) : trimSpaces l <:+: l := by
  unfold trimSpaces
  have h1 : l.dropWhile pySpace <:+ l := List.dropWhile_suffix pySpace
  have h2 : (l.dropWhile pySpace).reverse.dropWhile pySpace <:+
      (l.dropWhile pySpace).reverse := List.dropWhile_suffix pySpace
  rcases h1 with ⟨t1, ht1⟩
  rcases h2 with ⟨t2, ht2⟩
  refine ⟨t1, t2.reverse, ?_⟩
  have : (l.dropWhile pySpace) =
      ((l.dropWhile pySpace).reverse.dropWhile pySpace).reverse ++ t2.reverse := by
    calc l.dropWhile pySpace = (l.dropWhile pySpace).reverse.reverse := by rw [List.reverse_reverse]
      _ = (t2 ++ (l.dropWhile pySpace).reverse.dropWhile pySpace).reverse := by rw [ht2]
      _ = ((l.dropWhile pySpace).reverse.dropWhile pySpace).reverse ++ t2.reverse := by
          rw [List.reverse_append]
  have hfin : l = t1 ++ ((l.dropWhile pySpace).reverse.dropWhile pySpace).reverse ++
      t2.reverse :=
    calc l = t1 ++ l.dropWhile pySpace := ht1.symm
      _ = t1 ++ (((l.dropWhile pySpace).reverse.dropWhile pySpace).reverse ++ t2.reverse) := by
          rw [← this]
      _ = t1 ++ ((l.dropWhile pySpace).reverse.dropWhile pySpace).reverse ++ t2.reverse := by
          rw [List.append_assoc]
  exact hfin.symm

theorem getLast?_trimSpaces (l : List Char) (c : Char)
    (h : (trimSpaces l).getLast? = some c) : pySpace c = false := by
  unfold trimSpaces at h
  rw [List.getLast?_reverse] at h
  exact head_dropWhile pySpace c _ h

theorem head?_trimSpaces (l : List Char) (c : Char)
    (h : (trimSpaces l).head? = some c) : pySpace c = false := by
  unfold trimSpaces at h
  rw [List.head?_reverse] at h
  set w := (l.dropWhile pySpace).reverse with hw
  have hsuf : w.dropWhile pySpace <:+ w := List.dropWhile_suffix pySpace
  rcases hsuf with ⟨t, ht⟩
  have hne : w.dropWhile pySpace ≠ [] := by
    intro hnil
    rw [hnil] at h
    simp at h
  have hlast : (w.dropWhile pySpace).getLast? = w.getLast? := by
    conv_rhs => rw [← ht]
    rw [List.getLast?_append_of_ne_nil _ hne]
  rw [hlast, hw, List.getLast?_reverse] at h
  exact head_dropWhile pySpace c _ h

theorem trimSpaces_eq_self (l : List Char)
    (hh : ∀ c, l.head? = some c → pySpace c = false)
    (hl : ∀ c, l.getLast? = some c → pySpace c = false) : trimSpaces l = l := by
  unfold trimSpaces
  rw [dropWhile_eq_self_of_head pySpace l hh]
  rw [dropWhile_eq_self_of_head pySpace l.reverse (by
    intro c hc
    rw [List.head?_reverse] at hc
    exact hl c hc)]
  exact List.reverse_reverse l

theorem normalized_char_facts (s : String) (c : Char) (hc : c ∈ (normalize_name s).data) :
    keepChar c = true ∧ Char.toLower c = c ∧ (sdChar c = true → c = ' ') := by
  by_cases hs : s.data.isEmpty
  · rw [normalize_name, if_pos hs] at hc
    simp at hc
  · rw [normalize_name, if_neg hs] at hc
    have hc' : c ∈ collapseSD ((s.data.map Char.toLower).filter keepChar) :=
      (trimSpaces_within _).subset hc
    rcases mem_collapseSD c _ hc' with rfl | ⟨hm, hsd⟩
    · refine ⟨by decide, by decide, fun _ => rfl⟩
    · have hkeep : keepChar c = true := (List.mem_filter.mp hm).2
      rcases List.mem_map.mp (List.mem_filter.mp hm).1 with ⟨d, _, hd⟩
      subst hd
      exact ⟨hkeep, toLower_idem d, fun h => absurd h (by simp [hsd])⟩

theorem normalized_chain (s : String) :
    List.Chain' (fun a b => sdChar a = false ∨ sdChar b = false) (normalize_name s).data := by
  by_cases hs : s.data.isEmpty
  · rw [normalize_name, if_pos hs]
    simp
  · rw [normalize_name, if_neg hs]
    exact List.Chain'.infix (chain_collapseSD _) (trimSpaces_within _)

theorem normalized_head (s : String) (c : Char)
    (hc : (normalize_name s).data.head? = some c) : pySpace c = false := by
  by_cases hs : s.data.isEmpty
  · rw [normalize_name, if_pos hs] at hc
    simp at hc
  · rw [normalize_name, if_neg hs] at hc
    exact head?_trimSpaces _ c hc

theorem normalized_last (s : String) (c : Char)
    (hc : (normalize_name s).data.getLast? = some c) : pySpace c = false := by
  by_cases hs : s.data.isEmpty
  · rw [normalize_name, if_pos hs] at hc
    simp at hc
  · rw [normalize_name, if_neg hs] at hc
    exact getLast?_trimSpaces _ c hc

/-- Claim C9: `normalize_name` is idempotent. -/
theorem claim_C9_idempotent (s : String) :
    normalize_name (normalize_name s) = normalize_name s := by
  by_cases hnil : (normalize_name s).data.isEmpty
  · have hdat : (normalize_name s).data = [] := List.isEmpty_iff.mp hnil
    have hempty : normalize_name s = "" := by
      rcases hE : normalize_name s with ⟨d⟩
      rw [hE] at hdat
      have hd : d = [] := hdat
      subst hd
      rfl
    rw [hempty]
    rfl
  · set l := (normalize_name s).data with hl
    have hfacts := fun c hc => normalized_char_facts s c hc
    have e1 : l.map Char.toLower = l := by
      calc l.map Char.toLower = l.map id := List.map_congr_left (fun a ha => (hfacts a ha).2.1)
        _ = l := List.map_id l
    have e2 : l.filter keepChar = l := List.filter_eq_self.mpr (fun a ha => (hfacts a ha).1)
    have e3 : collapseSD l = l :=
      collapseSD_eq_self l (fun c hc => (hfacts c hc).2.2) (normalized_chain s)
    have e4 : trimSpaces l = l :=
      trimSpaces_eq_self l (normalized_head s) (normalized_last s)
    have hdata : (normalize_name s).data = l := rfl
    calc normalize_name (normalize_name s)
        = String.mk (trimSpaces (collapseSD (((normalize_name s).data.map
            Char.toLower).filter keepChar))) := by
          rw [normalize_name, if_neg (by rw [hdata]; exact hnil)]
      _ = String.mk l := by rw [hdata, e1, e2, e3, e4]
      _ = normalize_name s := rfl
